import Mathlib

/-!
Verification of the transcript normalizer of `app/services/transcription.py`
(class `TranscriptionService`).

Python strings are modelled as lists of Unicode codepoints (`List Nat`).
The regex character classes `\w` and `\s`, `str.lower`, `str.upper` and
`str.split()` are modelled on the ASCII range, which covers the filler
lexicon and every input of interest; comments on each definition name the
Python construct it embeds.

The two `re.sub` passes of `_remove_fillers` are embedded as explicit
left-to-right scans over the codepoint list:
 * `fillerSub` embeds `re.sub(r'\b(um|uh|...)\b', '', cleaned)`;
 * `stutterSub` embeds `re.sub(r'\b(\w+)\s+\1\b', r'\1', cleaned)`.
Both scans carry the previously consumed original character so that the
zero-width `\b` assertions are evaluated against the original subject
string, exactly as Python's `re.sub` does, and both resume scanning at the
end of each match (non-overlapping replacements).  The scans use a fuel
argument so that they are structurally recursive; each step consumes at
least one character of the subject, so fuel `length + 1` is never
exhausted.
-/

namespace VoicePhone

/-- ASCII model of the regex class `\s` (Python whitespace:
space, tab, newline, carriage return, vertical tab, form feed). -/
def isSpaceCp (n : Nat) : Bool :=
  decide (n = 32 ∨ n = 9 ∨ n = 10 ∨ n = 13 ∨ n = 11 ∨ n = 12)

/-- ASCII model of the regex class `\w`: letters, digits and underscore. -/
def isWordCp (n : Nat) : Bool :=
  decide ((65 ≤ n ∧ n ≤ 90) ∨ (97 ≤ n ∧ n ≤ 122) ∨ (48 ≤ n ∧ n ≤ 57) ∨ n = 95)

/-- ASCII model of `str.lower` applied to one character. -/
def pyLowerChar (n : Nat) : Nat :=
  if 65 ≤ n ∧ n ≤ 90 then n + 32 else n

/-- ASCII model of `str.upper` applied to one character. -/
def pyUpperChar (n : Nat) : Nat :=
  if 97 ≤ n ∧ n ≤ 122 then n - 32 else n

/-- Whether a codepoint is an upper-case ASCII letter. -/
def isUpperCp (n : Nat) : Bool :=
  decide (65 ≤ n ∧ n ≤ 90)

/-- Bridge from Lean string literals to the codepoint model. -/
def strCp (s : String) : List Nat :=
  s.data.map Char.toNat

/-- Word-character test on an optional neighbouring character; `none`
stands for the edge of the subject string and is not a word character. -/
def isWordOpt : Option Nat → Bool
  | none => false
  | some c => isWordCp c

/-- The zero-width regex assertion `\b` between two neighbouring
positions of the subject: it holds when exactly one side is a word
character. -/
def wordBoundary (a b : Option Nat) : Bool :=
  isWordOpt a != isWordOpt b

/-- The filler lexicon `self.filler_words` of `TranscriptionService`,
in the order it is written in the source.  It is a Python `set`, whose
iteration order is unspecified; no entry is a word-bounded prefix of
another, so the alternation `'|'.join(self.filler_words)` matches the
same spans whatever the order. -/
def filler_words : List (List Nat) :=
  [strCp "um", strCp "uh", strCp "ah", strCp "er", strCp "hmm",
   strCp "uhh", strCp "umm", strCp "ahh",
   strCp "basically", strCp "actually", strCp "like",
   strCp "you know", strCp "i mean",
   strCp "kind of", strCp "sort of", strCp "you see", strCp "right"]

/-- Whether the lexicon entry `f` matches at the current position of the
subject: the pattern `\b(...f...)\b` requires a word boundary between the
previously consumed character `prev` and the current position, the literal
characters of `f`, and a word boundary after them.  (The `re.IGNORECASE`
flag is inert here: the subject was lower-cased in step 1 and every
lexicon entry is lower-case.) -/
def matchesEntry (f : List Nat) (prev : Option Nat) (l : List Nat) : Bool :=
  wordBoundary prev l.head? &&
  f.isPrefixOf l &&
  wordBoundary f.getLast? (l.drop f.length).head?

/-- First lexicon entry matching at the current position, in the
alternation order of `filler_words`. -/
def findFiller (prev : Option Nat) (l : List Nat) : Option (List Nat) :=
  filler_words.find? (fun f => matchesEntry f prev l)

/-- One left-to-right pass of
`re.sub(filler_pattern, '', cleaned, flags=re.IGNORECASE)`:
at each position, if some lexicon entry matches it is deleted (replaced
by the empty string) and scanning resumes after the match, otherwise the
current character is copied.  `prev` is the character of the original
subject immediately before the current position. -/
def fillerScanF : Nat → Option Nat → List Nat → List Nat
  | 0, _, l => l
  | _ + 1, _, [] => []
  | fuel + 1, prev, c :: rest =>
    match findFiller prev (c :: rest) with
    | some f => fillerScanF fuel (some (f.getLastD c)) (rest.drop (f.length - 1))
    | none => c :: fillerScanF fuel (some c) rest

/-- `re.sub(filler_pattern, '', cleaned, flags=re.IGNORECASE)`. -/
def fillerSub (l : List Nat) : List Nat :=
  fillerScanF (l.length + 1) none l

/-- Match of the stutter pattern `\b(\w+)\s+\1\b` at the current
position.  A successful match captures the maximal `\w+` run `T`
(a shorter capture can never succeed: the character after a proper
prefix of the run is a word character, where `\s+` demands whitespace),
then the whole whitespace run, then the same token `T` again, followed
by a word boundary.  Returns the captured token and the total number of
subject characters consumed. -/
def stutterMatch (prev : Option Nat) (l : List Nat) : Option (List Nat × Nat) :=
  if isWordOpt prev then none
  else
    let T := l.takeWhile isWordCp
    if T.isEmpty then none
    else
      let S := (l.drop T.length).takeWhile isSpaceCp
      if S.isEmpty then none
      else
        let r2 := (l.drop T.length).drop S.length
        if T.isPrefixOf r2 && !isWordOpt (r2.drop T.length).head? then
          some (T, 2 * T.length + S.length)
        else none

/-- One left-to-right pass of `re.sub(r'\b(\w+)\s+\1\b', r'\1', cleaned)`:
each match `T whitespace T` is replaced by the capture `T`, and scanning
resumes after the match. -/
def stutterScanF : Nat → Option Nat → List Nat → List Nat
  | 0, _, l => l
  | _ + 1, _, [] => []
  | fuel + 1, prev, c :: rest =>
    match stutterMatch prev (c :: rest) with
    | some (T, skip) =>
        T ++ stutterScanF fuel (some (T.getLastD c)) (rest.drop (skip - 1))
    | none => c :: stutterScanF fuel (some c) rest

/-- `re.sub(r'\b(\w+)\s+\1\b', r'\1', cleaned)`. -/
def stutterSub (l : List Nat) : List Nat :=
  stutterScanF (l.length + 1) none l

/-- `re.sub(r'\s+', ' ', cleaned)`: every maximal whitespace run becomes
a single space (codepoint 32). -/
def collapseWs : List Nat → List Nat
  | [] => []
  | [c] => [if isSpaceCp c then 32 else c]
  | a :: b :: rest =>
    if isSpaceCp a && isSpaceCp b then collapseWs (b :: rest)
    else (if isSpaceCp a then 32 else a) :: collapseWs (b :: rest)

/-- `cleaned.strip()`: remove leading and trailing whitespace. -/
def stripWs (l : List Nat) : List Nat :=
  ((l.dropWhile isSpaceCp).reverse.dropWhile isSpaceCp).reverse

/-- `cleaned[0].upper() + cleaned[1:]` guarded by `if cleaned:`. -/
def capFirst : List Nat → List Nat
  | [] => []
  | c :: rest => pyUpperChar c :: rest

/-- `TranscriptionService._remove_fillers` (the normalizer of the spec):
lower-case, delete lexicon fillers, collapse stutters, collapse
whitespace, strip, capitalize the first character. -/
def removeFillers (text : List Nat) : List Nat :=
  let cleaned := text.map pyLowerChar
  let c1 := fillerSub cleaned
  let c2 := stutterSub c1
  let c3 := stripWs (collapseWs c2)
  capFirst c3

/-- State-carrying word counter: `inWord` records whether the previous
character was a non-whitespace character.  `wordCountAux false l` is
`len(l.split())`: the number of maximal non-whitespace runs. -/
def wordCountAux : Bool → List Nat → Nat
  | _, [] => 0
  | inWord, c :: rest =>
    if isSpaceCp c then wordCountAux false rest
    else (if inWord then 0 else 1) + wordCountAux true rest

/-- `len(text.split())`. -/
def wordCount (l : List Nat) : Nat :=
  wordCountAux false l

/-- Outcome of the Groq Whisper provider call (together with the file
read inside the same `try` block), as consumed by `transcribe`:
`transcription.text`, `transcription.language`, `transcription.duration`. -/
structure ProviderSuccess where
  text : List Nat
  language : List Nat
  duration : Int
  deriving DecidableEq

/-- The success payload built by `transcribe`. -/
structure TranscriptionOk where
  raw_text : List Nat
  clean_text : List Nat
  language : List Nat
  duration : Int
  fillers_removed : Int
  deriving DecidableEq

/-- The dictionary returned by `transcribe`: either the success payload
or `{"success": False, "error": str(e)}`. -/
inductive TranscribeResult where
  | success (r : TranscriptionOk)
  | failure (error : List Nat)
  deriving DecidableEq

/-- `TranscriptionService.transcribe`: the provider call (and the file
read) is modelled by its outcome `provider`; the surrounding
`try/except` catches every exception and returns the failure payload, so
the function is total.  On success the payload mirrors lines 56-63 of
the source: `clean_text` is `_remove_fillers(raw_text)` when
`remove_fillers` is set and `raw_text` otherwise, and `fillers_removed`
is `len(raw_text.split()) - len(clean_text.split())`. -/
def transcribe (provider : Except (List Nat) ProviderSuccess)
    (remove_fillers : Bool) : TranscribeResult :=
  match provider with
  | .error e => .failure e
  | .ok p =>
    let raw_text := p.text
    let clean_text := if remove_fillers then removeFillers raw_text else raw_text
    .success
      { raw_text := raw_text
        clean_text := clean_text
        language := p.language
        duration := p.duration
        fillers_removed := (wordCount raw_text : Int) - (wordCount clean_text : Int) }

/-- State of `wordCountAux` after consuming a list: whether its last
character is a non-whitespace character (the initial state if it has
none). -/
def endState (b : Bool) : List Nat → Bool
  | [] => b
  | c :: rest => endState (!isSpaceCp c) rest

theorem wordCountAux_true_le (l : List Nat) :
    wordCountAux true l ≤ wordCountAux false l := by
  cases l with
  | nil => exact Nat.le_refl _
  | cons c rest => cases hc : isSpaceCp c <;> simp [wordCountAux, hc]

theorem wordCountAux_false_le (l : List Nat) :
    wordCountAux false l ≤ wordCountAux true l + 1 := by
  cases l with
  | nil => exact Nat.le_succ _
  | cons c rest => cases hc : isSpaceCp c <;> simp [wordCountAux, hc] <;> omega

theorem wordCountAux_append (b : Bool) (x y : List Nat) :
    wordCountAux b (x ++ y) =
      wordCountAux b x + wordCountAux (endState b x) y := by
  induction x generalizing b with
  | nil => simp [wordCountAux, endState]
  | cons c rest ih =>
    cases hc : isSpaceCp c <;>
      simp [wordCountAux, endState, hc, ih] <;> omega

theorem le_wordCountAux_append (x y : List Nat) (b : Bool) :
    wordCountAux b y ≤ wordCountAux b (x ++ y) := by
  induction x generalizing b with
  | nil => exact Nat.le_refl _
  | cons c rest ih =>
    cases hc : isSpaceCp c
    · have h1 := wordCountAux_false_le y
      have h2 := ih true
      have h3 := wordCountAux_true_le y
      cases b <;> simp [wordCountAux, hc] <;> omega
    · have h2 := ih false
      have h3 := wordCountAux_true_le y
      cases b <;> simp [wordCountAux, hc] <;> omega

theorem wordCountAux_all_space (b : Bool) (l : List Nat)
    (h : ∀ c ∈ l, isSpaceCp c = true) : wordCountAux b l = 0 := by
  induction l generalizing b with
  | nil => rfl
  | cons c rest ih =>
    have hc := h c (by simp)
    simp only [wordCountAux, hc, if_true]
    exact ih false (fun d hd => h d (by simp [hd]))

theorem isSpaceCp_pyLowerChar (n : Nat) :
    isSpaceCp (pyLowerChar n) = isSpaceCp n := by
  unfold pyLowerChar isSpaceCp
  split
  · rw [decide_eq_decide]; omega
  · rfl

theorem isSpaceCp_pyUpperChar (n : Nat) :
    isSpaceCp (pyUpperChar n) = isSpaceCp n := by
  unfold pyUpperChar isSpaceCp
  split
  · rw [decide_eq_decide]; omega
  · rfl

theorem isUpperCp_pyLowerChar (n : Nat) :
    isUpperCp (pyLowerChar n) = false := by
  unfold pyLowerChar isUpperCp
  split <;> simp <;> omega

theorem wordCountAux_map_lower (b : Bool) (l : List Nat) :
    wordCountAux b (l.map pyLowerChar) = wordCountAux b l := by
  induction l generalizing b with
  | nil => rfl
  | cons c rest ih =>
    simp only [List.map_cons, wordCountAux, isSpaceCp_pyLowerChar]
    cases hc : isSpaceCp c <;> simp [hc, ih]

theorem eq_append_drop_of_isPrefixOf :
    ∀ {f l : List Nat}, f.isPrefixOf l = true → l = f ++ l.drop f.length := by
  intro f
  induction f with
  | nil => intro l _; simp
  | cons a f ih =>
    intro l h
    cases l with
    | nil => simp [List.isPrefixOf] at h
    | cons b l =>
      simp only [List.isPrefixOf, Bool.and_eq_true, beq_iff_eq] at h
      obtain ⟨rfl, h2⟩ := h
      simpa using ih h2

theorem filler_words_ne_nil : ∀ f ∈ filler_words, f ≠ [] := by decide

theorem wordCountAux_fillerScanF (fuel : Nat) :
    ∀ (prev : Option Nat) (l : List Nat) (b : Bool),
      wordCountAux b (fillerScanF fuel prev l) ≤ wordCountAux b l := by
  induction fuel with
  | zero => intro _ l b; exact Nat.le_refl _
  | succ fuel ih =>
    intro prev l b
    cases l with
    | nil => exact Nat.le_refl _
    | cons c rest =>
      simp only [fillerScanF]
      cases hf : findFiller prev (c :: rest) with
      | none =>
        simp only [hf]
        cases hc : isSpaceCp c <;> simp [wordCountAux, hc] <;>
          exact ih _ _ _
      | some f =>
        simp only [hf]
        have hf' : filler_words.find? (fun g => matchesEntry g prev (c :: rest)) = some f := hf
        have hmem : f ∈ filler_words := List.mem_of_find?_eq_some hf'
        have hmatch : matchesEntry f prev (c :: rest) = true := by
          simpa using List.find?_some hf'
        have hpre : f.isPrefixOf (c :: rest) = true := by
          unfold matchesEntry at hmatch
          simp only [Bool.and_eq_true] at hmatch
          exact hmatch.1.2
        have hfne : f ≠ [] := filler_words_ne_nil f hmem
        have hsplit := eq_append_drop_of_isPrefixOf hpre
        have hlen : f.length - 1 + 1 = f.length :=
          Nat.succ_pred_eq_of_pos (List.length_pos.mpr hfne)
        have hdrop : rest.drop (f.length - 1) = (c :: rest).drop f.length := by
          rw [← hlen, List.drop_succ_cons, hlen]
        rw [hdrop]
        calc wordCountAux b (fillerScanF fuel (some (f.getLastD c)) ((c :: rest).drop f.length))
            ≤ wordCountAux b ((c :: rest).drop f.length) := ih _ _ _
          _ ≤ wordCountAux b (f ++ (c :: rest).drop f.length) :=
              le_wordCountAux_append _ _ _
          _ = wordCountAux b (c :: rest) := by rw [← hsplit]

theorem takeWhile_isPrefixOf (p : Nat → Bool) :
    ∀ l : List Nat, (l.takeWhile p).isPrefixOf l = true := by
  intro l
  induction l with
  | nil => rfl
  | cons c rest ih =>
    simp only [List.takeWhile_cons]
    cases hp : p c
    · simp [List.isPrefixOf]
    · simp [List.isPrefixOf, ih]

theorem drop_append_length (x y : List Nat) (n : Nat) :
    (x ++ y).drop (x.length + n) = y.drop n := by
  induction x with
  | nil => simp
  | cons a x ih => simpa [Nat.succ_add] using ih

theorem length_pos_of_isEmpty_false {l : List Nat} (h : l.isEmpty = false) :
    1 ≤ l.length := by
  cases l with
  | nil => simp at h
  | cons a l => simp

theorem stutterMatch_some {prev : Option Nat} {l T : List Nat} {skip : Nat}
    (hm : stutterMatch prev l = some (T, skip)) :
    isWordOpt prev = false ∧
    T = l.takeWhile isWordCp ∧
    T.isEmpty = false ∧
    ((l.drop T.length).takeWhile isSpaceCp).isEmpty = false ∧
    T.isPrefixOf ((l.drop T.length).drop
      ((l.drop T.length).takeWhile isSpaceCp).length) = true ∧
    skip = 2 * T.length + ((l.drop T.length).takeWhile isSpaceCp).length := by
  simp only [stutterMatch] at hm
  split at hm
  next h1 => exact absurd hm (by simp)
  next h1 =>
    split at hm
    next h2 => exact absurd hm (by simp)
    next h2 =>
      split at hm
      next h3 => exact absurd hm (by simp)
      next h3 =>
        split at hm
        next h4 =>
          simp only [Option.some.injEq, Prod.mk.injEq] at hm
          obtain ⟨hT, hskip⟩ := hm
          subst hT
          simp only [Bool.and_eq_true] at h4
          refine ⟨by simpa using h1, rfl, by simpa using h2, by simpa using h3,
            h4.1, hskip.symm⟩
        next h4 => exact absurd hm (by simp)

theorem wordCountAux_stutterScanF (fuel : Nat) :
    ∀ (prev : Option Nat) (l : List Nat) (b : Bool),
      wordCountAux b (stutterScanF fuel prev l) ≤ wordCountAux b l := by
  induction fuel with
  | zero => intro _ l b; exact Nat.le_refl _
  | succ fuel ih =>
    intro prev l b
    cases l with
    | nil => exact Nat.le_refl _
    | cons c rest =>
      simp only [stutterScanF]
      cases hm : stutterMatch prev (c :: rest) with
      | none =>
        simp only [hm]
        cases hc : isSpaceCp c <;> simp [wordCountAux, hc] <;> exact ih _ _ _
      | some Ts =>
        obtain ⟨T, skip⟩ := Ts
        simp only [hm]
        obtain ⟨hprev, hT, hTne, hSne, hpre, hskip⟩ := stutterMatch_some hm
        have hpA : T.isPrefixOf (c :: rest) = true := by
          rw [hT]; exact takeWhile_isPrefixOf isWordCp (c :: rest)
        have hA : c :: rest = T ++ (c :: rest).drop T.length :=
          eq_append_drop_of_isPrefixOf hpA
        have hB : (c :: rest).drop T.length =
            ((c :: rest).drop T.length).takeWhile isSpaceCp ++
            ((c :: rest).drop T.length).drop
              (((c :: rest).drop T.length).takeWhile isSpaceCp).length := by
          have hpB := takeWhile_isPrefixOf isSpaceCp ((c :: rest).drop T.length)
          exact eq_append_drop_of_isPrefixOf hpB
        have hC := eq_append_drop_of_isPrefixOf hpre
        have hTlen : 1 ≤ T.length := length_pos_of_isEmpty_false hTne
        have hSlen : 1 ≤ (((c :: rest).drop T.length).takeWhile isSpaceCp).length :=
          length_pos_of_isEmpty_false hSne
        set S := ((c :: rest).drop T.length).takeWhile isSpaceCp with hSdef
        set rem := (((c :: rest).drop T.length).drop S.length).drop T.length with hremdef
        have hfull : c :: rest = T ++ (S ++ (T ++ rem)) := by
          rw [← hC, ← hB, ← hA]
        have hdropskip : (c :: rest).drop skip = rem := by
          have hs : skip = T.length + (S.length + (T.length + 0)) := by omega
          rw [hs, hfull, drop_append_length, drop_append_length,
            drop_append_length, List.drop_zero]
        have hgoal_drop : rest.drop (skip - 1) = rem := by
          have hs1 : skip - 1 + 1 = skip := by omega
          have hstep : (c :: rest).drop (skip - 1 + 1) = rest.drop (skip - 1) :=
            List.drop_succ_cons
          rw [hs1] at hstep
          rw [← hstep, hdropskip]
        rw [hgoal_drop]
        conv_rhs => rw [hfull]
        rw [wordCountAux_append b T, wordCountAux_append b T]
        apply Nat.add_le_add_left
        calc wordCountAux (endState b T) (stutterScanF fuel (some (T.getLastD c)) rem)
            ≤ wordCountAux (endState b T) rem := ih _ _ _
          _ ≤ wordCountAux (endState b T) ((S ++ T) ++ rem) :=
              le_wordCountAux_append _ _ _
          _ = wordCountAux (endState b T) (S ++ (T ++ rem)) := by
              rw [List.append_assoc]

theorem wordCountAux_collapseWs (l : List Nat) :
    ∀ b, wordCountAux b (collapseWs l) = wordCountAux b l := by
  induction l with
  | nil => intro b; rfl
  | cons a rest ih =>
    intro b
    cases rest with
    | nil =>
      cases ha : isSpaceCp a <;>
        simp [collapseWs, wordCountAux, ha, show isSpaceCp 32 = true from rfl]
    | cons d rest2 =>
      cases ha : isSpaceCp a
      · have hcol : collapseWs (a :: d :: rest2) = a :: collapseWs (d :: rest2) := by
          simp [collapseWs, ha]
        rw [hcol]
        simp [wordCountAux, ha, ih]
      · cases hd : isSpaceCp d
        · have hcol : collapseWs (a :: d :: rest2) = 32 :: collapseWs (d :: rest2) := by
            simp [collapseWs, ha, hd]
          rw [hcol]
          simp [wordCountAux, show isSpaceCp 32 = true from rfl, ha, ih]
        · have hcol : collapseWs (a :: d :: rest2) = collapseWs (d :: rest2) := by
            simp [collapseWs, ha, hd]
          rw [hcol, ih]
          simp [wordCountAux, ha, hd]

theorem wordCountAux_dropWhile_space (l : List Nat) :
    wordCountAux false (l.dropWhile isSpaceCp) = wordCountAux false l := by
  induction l with
  | nil => rfl
  | cons c rest ih =>
    cases hc : isSpaceCp c
    · simp [List.dropWhile_cons, hc]
    · simp [List.dropWhile_cons, hc, wordCountAux, ih]

theorem mem_reverse_takeWhile_space {x : List Nat} :
    ∀ c ∈ (x.reverse.takeWhile isSpaceCp).reverse, isSpaceCp c = true := by
  intro c hc
  rw [List.mem_reverse] at hc
  exact List.mem_takeWhile_imp hc

theorem wordCountAux_stripTrailing (x : List Nat) (b : Bool) :
    wordCountAux b ((x.reverse.dropWhile isSpaceCp).reverse) = wordCountAux b x := by
  have hsplit : x = (x.reverse.dropWhile isSpaceCp).reverse ++
      (x.reverse.takeWhile isSpaceCp).reverse := by
    conv_lhs => rw [← List.reverse_reverse x,
      ← List.takeWhile_append_dropWhile (p := isSpaceCp) (l := x.reverse)]
    rw [List.reverse_append]
  conv_rhs => rw [hsplit]
  rw [wordCountAux_append]
  rw [wordCountAux_all_space _ _ mem_reverse_takeWhile_space]
  omega

theorem wordCount_stripWs (l : List Nat) :
    wordCount (stripWs l) = wordCount l := by
  unfold stripWs wordCount
  rw [wordCountAux_stripTrailing, wordCountAux_dropWhile_space]

theorem wordCount_capFirst (l : List Nat) :
    wordCount (capFirst l) = wordCount l := by
  cases l with
  | nil => rfl
  | cons c rest =>
    unfold wordCount capFirst
    simp only [wordCountAux, isSpaceCp_pyUpperChar]

theorem wordCount_removeFillers_le (l : List Nat) :
    wordCount (removeFillers l) ≤ wordCount l := by
  show wordCount (capFirst (stripWs (collapseWs
    (stutterSub (fillerSub (l.map pyLowerChar)))))) ≤ wordCount l
  rw [wordCount_capFirst, wordCount_stripWs]
  unfold wordCount
  rw [wordCountAux_collapseWs]
  calc wordCountAux false (stutterSub (fillerSub (l.map pyLowerChar)))
      ≤ wordCountAux false (fillerSub (l.map pyLowerChar)) :=
        wordCountAux_stutterScanF _ _ _ _
    _ ≤ wordCountAux false (l.map pyLowerChar) :=
        wordCountAux_fillerScanF _ _ _ _
    _ = wordCountAux false l := wordCountAux_map_lower _ _

theorem mem_fillerScanF (fuel : Nat) :
    ∀ (prev : Option Nat) (l : List Nat) (x : Nat),
      x ∈ fillerScanF fuel prev l → x ∈ l := by
  induction fuel with
  | zero => intro _ l x h; exact h
  | succ fuel ih =>
    intro prev l x h
    cases l with
    | nil => simp [fillerScanF] at h
    | cons c rest =>
      simp only [fillerScanF] at h
      cases hf : findFiller prev (c :: rest) with
      | some f =>
        simp only [hf] at h
        exact List.mem_cons_of_mem c (List.drop_subset _ _ (ih _ _ _ h))
      | none =>
        simp only [hf] at h
        rcases List.mem_cons.mp h with rfl | h2
        · exact List.mem_cons_self _ _
        · exact List.mem_cons_of_mem c (ih _ _ _ h2)

theorem mem_stutterScanF (fuel : Nat) :
    ∀ (prev : Option Nat) (l : List Nat) (x : Nat),
      x ∈ stutterScanF fuel prev l → x ∈ l := by
  induction fuel with
  | zero => intro _ l x h; exact h
  | succ fuel ih =>
    intro prev l x h
    cases l with
    | nil => simp [stutterScanF] at h
    | cons c rest =>
      simp only [stutterScanF] at h
      cases hm : stutterMatch prev (c :: rest) with
      | some Ts =>
        obtain ⟨T, skip⟩ := Ts
        simp only [hm] at h
        obtain ⟨-, hT, -, -, -, -⟩ := stutterMatch_some hm
        rcases List.mem_append.mp h with hx | hx
        · rw [hT] at hx
          rw [eq_append_drop_of_isPrefixOf (takeWhile_isPrefixOf isWordCp (c :: rest))]
          exact List.mem_append.mpr (Or.inl hx)
        · exact List.mem_cons_of_mem c (List.drop_subset _ _ (ih _ _ _ hx))
      | none =>
        simp only [hm] at h
        rcases List.mem_cons.mp h with rfl | h2
        · exact List.mem_cons_self _ _
        · exact List.mem_cons_of_mem c (ih _ _ _ h2)

theorem mem_collapseWs :
    ∀ (l : List Nat) (x : Nat), x ∈ collapseWs l → x ∈ l ∨ x = 32 := by
  intro l
  induction l with
  | nil => intro x h; simp [collapseWs] at h
  | cons a rest ih =>
    intro x h
    cases rest with
    | nil =>
      simp only [collapseWs] at h
      cases ha : isSpaceCp a
      · simp [ha] at h
        exact Or.inl (by simp [h])
      · simp [ha] at h
        exact Or.inr h
    | cons d rest2 =>
      cases ha : isSpaceCp a
      · have hcol : collapseWs (a :: d :: rest2) = a :: collapseWs (d :: rest2) := by
          simp [collapseWs, ha]
        rw [hcol] at h
        rcases List.mem_cons.mp h with rfl | h2
        · exact Or.inl (List.mem_cons_self _ _)
        · rcases ih _ h2 with hx | hx
          · exact Or.inl (List.mem_cons_of_mem a hx)
          · exact Or.inr hx
      · cases hd : isSpaceCp d
        · have hcol : collapseWs (a :: d :: rest2) = 32 :: collapseWs (d :: rest2) := by
            simp [collapseWs, ha, hd]
          rw [hcol] at h
          rcases List.mem_cons.mp h with rfl | h2
          · exact Or.inr rfl
          · rcases ih _ h2 with hx | hx
            · exact Or.inl (List.mem_cons_of_mem a hx)
            · exact Or.inr hx
        · have hcol : collapseWs (a :: d :: rest2) = collapseWs (d :: rest2) := by
            simp [collapseWs, ha, hd]
          rw [hcol] at h
          rcases ih _ h with hx | hx
          · exact Or.inl (List.mem_cons_of_mem a hx)
          · exact Or.inr hx

theorem mem_of_mem_dropWhile {p : Nat → Bool} {l : List Nat} {x : Nat}
    (h : x ∈ l.dropWhile p) : x ∈ l := by
  rw [← List.takeWhile_append_dropWhile (p := p) (l := l)]
  exact List.mem_append.mpr (Or.inr h)

theorem mem_stripWs (l : List Nat) (x : Nat) (h : x ∈ stripWs l) : x ∈ l := by
  unfold stripWs at h
  rw [List.mem_reverse] at h
  have h2 := mem_of_mem_dropWhile h
  rw [List.mem_reverse] at h2
  exact mem_of_mem_dropWhile h2

theorem isUpperCp_of_mem_preCap (l : List Nat) (x : Nat)
    (h : x ∈ stripWs (collapseWs (stutterSub (fillerSub (l.map pyLowerChar))))) :
    isUpperCp x = false := by
  have h1 := mem_stripWs _ _ h
  rcases mem_collapseWs _ _ h1 with h2 | rfl
  · have h3 := mem_stutterScanF _ _ _ _ h2
    have h4 := mem_fillerScanF _ _ _ _ h3
    rcases List.mem_map.mp h4 with ⟨y, -, rfl⟩
    exact isUpperCp_pyLowerChar y
  · rfl


/-- C1: stutter collapse is a single non-recursive, left-to-right,
non-overlapping pass: an immediately repeated word collapses pairwise,
not exhaustively, so `normalize("the the the cat")` is `"The the cat"`,
not `"The cat"`. -/
theorem C1_stutter_collapse_pairwise :
    removeFillers (strCp "the the the cat") = strCp "The the cat" ∧
    removeFillers (strCp "the the the cat") ≠ strCp "The cat" := by decide

/-- C2: for every input, the reported `fillers_removed` equals the
whitespace-split word count of the raw text minus that of the cleaned
text, and this difference is never negative: the normalizer never
increases the word count. -/
theorem C2_fillers_removed_invariant (raw lang : List Nat) (dur : Int) (rf : Bool) :
    ∃ r, transcribe (Except.ok ⟨raw, lang, dur⟩) rf = TranscribeResult.success r ∧
      r.fillers_removed = (wordCount raw : Int) - (wordCount r.clean_text : Int) ∧
      0 ≤ r.fillers_removed := by
  cases rf
  · refine ⟨_, rfl, rfl, ?_⟩
    show 0 ≤ (wordCount raw : Int) - (wordCount raw : Int)
    omega
  · refine ⟨_, rfl, rfl, ?_⟩
    have h := wordCount_removeFillers_le raw
    show 0 ≤ (wordCount raw : Int) - (wordCount (removeFillers raw) : Int)
    omega

/-- Closed instance of C2 at a concrete provider outcome. -/
theorem C2_fillers_removed_invariant_witness :
    ∃ r, transcribe (Except.ok ⟨strCp "um hi", strCp "en", 1⟩) true =
        TranscribeResult.success r ∧
      r.fillers_removed = (wordCount (strCp "um hi") : Int) -
        (wordCount r.clean_text : Int) ∧
      0 ≤ r.fillers_removed :=
  C2_fillers_removed_invariant (strCp "um hi") (strCp "en") 1 true

/-- C3: a lexicon entry matches only as a whole word or phrase bounded
by word boundaries on both sides, so a substring occurrence inside a
larger word is never removed; in particular
`normalize("I likely will go")` retains `"likely"`. -/
theorem C3_whole_word_matching :
    (∀ (f : List Nat) (prev : Option Nat) (l : List Nat),
        matchesEntry f prev l = true →
          f.isPrefixOf l = true ∧
          wordBoundary prev l.head? = true ∧
          wordBoundary f.getLast? (l.drop f.length).head? = true) ∧
    removeFillers (strCp "I likely will go") = strCp "I likely will go" ∧
    strCp "likely" <:+: removeFillers (strCp "I likely will go") := by
  refine ⟨?_, by decide, by decide⟩
  intro f prev l h
  unfold matchesEntry at h
  simp only [Bool.and_eq_true] at h
  exact ⟨h.1.2, h.1.1, h.2⟩

/-- Closed instance of the boundary conditions of C3 at a concrete
match of the entry `"like"`. -/
theorem C3_whole_word_matching_witness :
    (strCp "like").isPrefixOf (strCp "like it") = true ∧
    wordBoundary (some 32) (strCp "like it").head? = true ∧
    wordBoundary (strCp "like").getLast?
      ((strCp "like it").drop (strCp "like").length).head? = true :=
  C3_whole_word_matching.1 (strCp "like") (some 32) (strCp "like it") (by decide)

/-- C4: the normalizer is not idempotent: on a word repeated three
times in a row, normalizing a second time changes the result again. -/
theorem C4_not_idempotent :
    ∃ x : List Nat, removeFillers (removeFillers x) ≠ removeFillers x :=
  ⟨strCp "the the the cat", by decide⟩

/-- C5: the normalizer is total: it is a plain function on codepoint
lists (no exceptional exit exists in the embedding), and on the empty
string and on whitespace-only strings it returns the empty string; in
particular `normalize("")` is `""`. -/
theorem C5_normalizer_total :
    removeFillers (strCp "") = strCp "" ∧
    removeFillers (strCp "   ") = strCp "" ∧
    removeFillers (strCp " \t\n ") = strCp "" := by decide

/-- C6: on `"um I mean this is like basically fine"` the normalizer
removes every lexicon filler present, collapses whitespace and
capitalizes the first letter, yielding exactly `"This is fine"`. -/
theorem C6_filler_removal_example :
    removeFillers (strCp "um I mean this is like basically fine") =
      strCp "This is fine" := by decide

/-- C7: multi-word lexicon entries match as exact whole phrases with
internal whitespace; both occurrences of `"you know"` in
`"you know this is, you know, important"` are removed by the
normalizer. -/
theorem C7_multiword_phrase_removed :
    removeFillers (strCp "you know this is, you know, important") =
      strCp "This is, , important" ∧
    ¬ (strCp "you know" <:+:
        removeFillers (strCp "you know this is, you know, important")) := by decide

/-- C8: whenever the normalized result is non-empty, its first
character is the upper-cased first character of the pre-capitalization
text, and no character after the first is an upper-case letter (the
whole text was lower-cased in step 1 and no later step introduces
upper-case characters). -/
theorem C8_capitalization (l : List Nat) (h : removeFillers l ≠ []) :
    ∃ c t, removeFillers l = pyUpperChar c :: t ∧ ∀ x ∈ t, isUpperCp x = false := by
  have hrf : removeFillers l =
      capFirst (stripWs (collapseWs (stutterSub (fillerSub (l.map pyLowerChar))))) := rfl
  cases hqe : stripWs (collapseWs (stutterSub (fillerSub (l.map pyLowerChar)))) with
  | nil => rw [hrf, hqe] at h; simp [capFirst] at h
  | cons c t =>
    refine ⟨c, t, by rw [hrf, hqe]; rfl, ?_⟩
    intro x hx
    exact isUpperCp_of_mem_preCap l x (by rw [hqe]; exact List.mem_cons_of_mem c hx)

/-- Closed instance of C8 on a concrete non-empty result. -/
theorem C8_capitalization_witness :
    ∃ c t, removeFillers (strCp "hi") = pyUpperChar c :: t ∧
      ∀ x ∈ t, isUpperCp x = false :=
  C8_capitalization (strCp "hi") (by decide)

/-- C9: `transcribe` never propagates an exception: on a successful
provider call it returns the success payload with `clean_text` the
normalized `raw_text` when the remove-fillers flag is set, and
`clean_text = raw_text` with `fillers_removed = 0` when it is not; on
provider failure it returns the failure payload carrying the error. -/
theorem C9_transcribe_payload (p : ProviderSuccess) (e : List Nat) (rf : Bool) :
    transcribe (Except.ok p) true = TranscribeResult.success
      { raw_text := p.text, clean_text := removeFillers p.text,
        language := p.language, duration := p.duration,
        fillers_removed := (wordCount p.text : Int) -
          (wordCount (removeFillers p.text) : Int) } ∧
    transcribe (Except.ok p) false = TranscribeResult.success
      { raw_text := p.text, clean_text := p.text,
        language := p.language, duration := p.duration,
        fillers_removed := 0 } ∧
    transcribe (Except.error e) rf = TranscribeResult.failure e := by
  refine ⟨rfl, ?_, rfl⟩
  simp [transcribe]

/-- Closed instance of C9 at concrete provider outcomes. -/
theorem C9_transcribe_payload_witness :
    transcribe (Except.ok ⟨strCp "hi", strCp "en", 2⟩) false =
      TranscribeResult.success
        { raw_text := strCp "hi", clean_text := strCp "hi",
          language := strCp "en", duration := 2, fillers_removed := 0 } ∧
    transcribe (Except.error (strCp "boom")) true =
      TranscribeResult.failure (strCp "boom") :=
  ⟨(C9_transcribe_payload ⟨strCp "hi", strCp "en", 2⟩ (strCp "boom") true).2.1,
   (C9_transcribe_payload ⟨strCp "hi", strCp "en", 2⟩ (strCp "boom") true).2.2⟩

/-- C10: stutter collapse applies only when the two occurrences of the
repeated word are separated purely by whitespace: in `"yes, yes"` the
repetition is not collapsed, because the pattern requires whitespace
between the word and its copy. -/
theorem C10_stutter_requires_whitespace :
    stutterSub (strCp "yes, yes") = strCp "yes, yes" ∧
    removeFillers (strCp "yes, yes") = strCp "Yes, yes" := by decide

end VoicePhone
